import Mathlib
/-!
Verification of the multi-source job-scraping and enrichment pipeline
(`src/scrapers/index.js`, class `JobScraper`).

The JavaScript pipeline is shallowly embedded: pure string manipulation is
translated function-by-function; interactions with the external world (the
browser pages, the network, the cookie file) are abstracted as explicit
parameters recording the outcome of each external operation; the asynchronous
worker pool of `enrichJobsWithDescriptions` is embedded as an explicit state
machine whose nondeterministic completion order is a `schedule` parameter.
Machine strings are modelled as Lean `String` (a list of characters); the
JavaScript `toLowerCase`, `trim`, `includes`, `startsWith` operations are
realised on the character-list representation.
-/
set_option autoImplicit false

/-! ### JavaScript string primitives used by the scraper -/

/-- The set of characters matched by JavaScript's `\s` regex class and
removed by `String.prototype.trim` (ASCII whitespace, NBSP, Unicode spaces,
line/paragraph separators, BOM). -/
def isJsSpace (ch : Char) : Bool :=
  ch == ' ' || ch == '\t' || ch == '\n' || ch == '\r' || ch == '\u000b' ||
  ch == '\u000c' || ch == ' ' || ch == ' ' ||
  (decide (' ' ≤ ch) && decide (ch ≤ ' ')) ||
  ch == ' ' || ch == ' ' || ch == ' ' || ch == ' ' ||
  ch == '　' || ch == '﻿'

/-- JavaScript `String.prototype.trim` on the character list: drop leading and
trailing whitespace. -/
def jsTrim (l : List Char) : List Char :=
  ((l.dropWhile isJsSpace).reverse.dropWhile isJsSpace).reverse

/-- JavaScript `s.trim()` on strings. -/
def jsTrimStr (s : String) : String :=
  String.mk (jsTrim s.data)

/-- JavaScript `s.toLowerCase()` (character-wise lowering; the scraper only
compares ASCII titles and company names). -/
def lowerStr (s : String) : String :=
  String.mk (s.data.map Char.toLower)

/-- `needle` occurs as a contiguous substring of `hay`
(JavaScript `hay.includes(needle)`), on character lists. -/
def strIncludes (hay needle : String) : Bool :=
  hay.data.tails.any (fun t => needle.data.isPrefixOf t)

/-- JavaScript `hay.startsWith(needle)`. -/
def strStartsWith (hay needle : String) : Bool :=
  needle.data.isPrefixOf hay.data

/-- JavaScript truthiness of a nullable string (`null` and `""` are falsy). -/
def jsTruthy : Option String → Bool
  | none => false
  | some s => s != ""

/-- JavaScript string coercion of a nullable string, as it happens inside a
template literal: `null` prints as `"null"`. -/
def jsCoerce : Option String → String
  | none => "null"
  | some s => s

/-! ### The job record data model -/

/-- One scraped posting, mirroring the object literal pushed by each adapter:
`{ title, company, location, link, source, scraped_at, description }`. -/
structure JobRecord where
  title : String
  company : String
  location : String
  link : String
  source : String
  scraped_at : String
  description : String
deriving DecidableEq, Repr

/-- The case-insensitive comparison used by the dedup `findIndex` callback:
`j.title.toLowerCase() === job.title.toLowerCase() &&
 j.company.toLowerCase() === job.company.toLowerCase()`. -/
def sameKey (a b : JobRecord) : Bool :=
  (lowerStr a.title == lowerStr b.title) && (lowerStr a.company == lowerStr b.company)

/-- The dedup identity of a record: lowercased `(title, company)`. -/
def jobKey (a : JobRecord) : String × String :=
  (lowerStr a.title, lowerStr a.company)

/-- The dedup step of `scrapeAllSites`:
`allJobs.filter((job, index, self) => index === self.findIndex(j => sameKey j job))`. -/
def dedupJobs (l : List JobRecord) : List JobRecord :=
  (l.enum.filter (fun ij => ij.1 == l.findIdx (fun j => sameKey j ij.2))).map Prod.snd

/-- Recursive characterisation of first-occurrence dedup: `pre` is the list of
records that occur before the current suffix in the full input.  A record is
kept exactly when no earlier record shares its key. -/
def keepFirst (pre : List JobRecord) : List JobRecord → List JobRecord
  | [] => []
  | x :: rest =>
    if pre.all (fun p => !(sameKey p x)) then x :: keepFirst (pre ++ [x]) rest
    else keepFirst (pre ++ [x]) rest

/-! ### Cookie persistence and session management

`loadCookies`/`saveCookies` wrap every filesystem/context failure in a
`try { ... } catch { logger.warn(...) }`, so a failure can never escape; the
`ok` flag records whether the underlying cookie operation would have
succeeded. `initialize()` re-throws any browser-launch/context failure. -/

/-- Outcome of the raw cookie file/context operation. -/
def cookieAttempt (ok : Bool) : Except Unit Unit :=
  if ok then Except.ok () else Except.error ()

/-- `loadCookies`: best-effort, failures are logged and swallowed. -/
def loadCookies (ok : Bool) : Unit :=
  match cookieAttempt ok with
  | Except.ok u => u
  | Except.error _ => ()

/-- `saveCookies`: best-effort, failures are logged and swallowed. -/
def saveCookies (ok : Bool) : Unit :=
  match cookieAttempt ok with
  | Except.ok u => u
  | Except.error _ => ()

/-- `initialize()`: browser launch and context creation may fail, in which case
the error is re-thrown; a cookie-load failure inside it is swallowed by
`loadCookies` itself. -/
def sessionInit (browserOk cookieLoadOk : Bool) : Except Unit Unit :=
  if browserOk then Except.ok (loadCookies cookieLoadOk) else Except.error ()

/-- The settlement state of one adapter promise, as observed through
`Promise.allSettled`. -/
inductive SettledResult (α : Type) where
  | fulfilled (value : α)
  | rejected
deriving DecidableEq

/-- `r.status === 'fulfilled' ? r.value : []`. -/
def settledValue : SettledResult (List JobRecord) → List JobRecord
  | SettledResult.fulfilled v => v
  | SettledResult.rejected => []

/-- The Aggregator `scrapeAllSites()`: initialize the session (propagating its
failure), settle all three adapters, concatenate fulfilled results in the
fixed order LinkedIn, Indeed, Naukri, dedup by case-insensitive
`(title, company)`, save cookies best-effort, and return the unique list. -/
def scrapeAllSites (browserOk cookieLoadOk cookieSaveOk : Bool)
    (linkedinJobs indeedJobs naukriJobs : SettledResult (List JobRecord)) :
    Except Unit (List JobRecord) :=
  match sessionInit browserOk cookieLoadOk with
  | Except.error e => Except.error e
  | Except.ok _ =>
    let allJobs := settledValue linkedinJobs ++ settledValue indeedJobs ++
      settledValue naukriJobs
    let uniqueJobs := dedupJobs allJobs
    let _ := saveCookies cookieSaveOk
    Except.ok uniqueJobs

/-! ### The location relevance filter -/

/-- `isRelevantLocation(location)`: unknown locations (`null`, `""`, `"N/A"`)
are accepted; otherwise accept iff the lowercased location contains some
lowercased accepted-location substring, or contains "remote" or
"work from home". -/
def isRelevantLocation (primary : List String) (location : Option String) : Bool :=
  if !(jsTruthy location) || location == some "N/A" then true
  else
    let locationLower := lowerStr (jsCoerce location)
    primary.any (fun loc => strIncludes locationLower (lowerStr loc)) ||
      strIncludes locationLower "remote" || strIncludes locationLower "work from home"

/-! ### Per-card extraction in the three Source Adapters

Each selector query (`textContent`, `getAttribute`) resolves to a string, to
`null`, or rejects; a rejection is converted by `.catch(...)` to the literal
default (`'N/A'` for text fields, `'#'` for links), so the value flowing into
the card-processing code is string-or-null, modelled as `Option String`.  A
thrown `TypeError` from calling `.trim()` on `null` inside `jobs.push` is
caught by the per-card `catch`, which skips the record. -/

/-- The raw field values extracted for one LinkedIn/Naukri card. -/
structure RawCard where
  title : Option String
  company : Option String
  location : Option String
  link : Option String
deriving DecidableEq

/-- The raw field values extracted for one Indeed card, whose title has two
strategies: `textContent` first, `aria-label` if the first was falsy. -/
structure IndeedRawCard where
  titleText : Option String
  titleAria : Option String
  company : Option String
  location : Option String
  link : Option String
deriving DecidableEq

/-- ``link && link.startsWith('http') ? link : `https://linkedin.com${link}` ``. -/
def finalLink (base : String) (link : Option String) : String :=
  if jsTruthy link && strStartsWith (jsCoerce link) "http" then jsCoerce link
  else base ++ jsCoerce link

/-- One LinkedIn card: kept iff `title && title !== 'N/A' && title.trim() !== ''`,
and building the record throws (skipping it) when company or location is null. -/
def linkedInCardRecord (now : String) (c : RawCard) : Option JobRecord :=
  match c.title with
  | none => none
  | some t =>
    if t != "" && t != "N/A" && jsTrimStr t != "" then
      match c.company, c.location with
      | some comp, some loc =>
        some { title := jsTrimStr t, company := jsTrimStr comp, location := jsTrimStr loc,
               link := finalLink "https://linkedin.com" c.link, source := "LinkedIn",
               scraped_at := now, description := "" }
      | _, _ => none
    else none

/-- The LinkedIn card loop: at most `maxJobs` cards are processed. -/
def scrapeLinkedInCards (cards : List RawCard) (maxJobs : Nat) (now : String) :
    List JobRecord :=
  (cards.take maxJobs).filterMap (linkedInCardRecord now)

/-- One Indeed card: title falls back from `textContent` to `aria-label`; the
keep condition and the null-company/location behaviour match LinkedIn. -/
def indeedCardRecord (now : String) (c : IndeedRawCard) : Option JobRecord :=
  match (if jsTruthy c.titleText then c.titleText else c.titleAria) with
  | none => none
  | some t =>
    if t != "" && t != "N/A" && jsTrimStr t != "" then
      match c.company, c.location with
      | some comp, some loc =>
        some { title := jsTrimStr t, company := jsTrimStr comp, location := jsTrimStr loc,
               link := finalLink "https://in.indeed.com" c.link, source := "Indeed",
               scraped_at := now, description := "" }
      | _, _ => none
    else none

/-- The Indeed card loop. -/
def scrapeIndeedCards (cards : List IndeedRawCard) (maxJobs : Nat) (now : String) :
    List JobRecord :=
  (cards.take maxJobs).filterMap (indeedCardRecord now)

/-- One Naukri card: kept iff
`title && title !== 'N/A' && isRelevantLocation(location)` — note no
`title.trim() !== ''` test — and building the record throws (skipping it) when
company or location is null. -/
def naukriCardRecord (primary : List String) (now : String) (c : RawCard) :
    Option JobRecord :=
  match c.title with
  | none => none
  | some t =>
    if t != "" && t != "N/A" && isRelevantLocation primary c.location then
      match c.company, c.location with
      | some comp, some loc =>
        some { title := jsTrimStr t, company := jsTrimStr comp, location := jsTrimStr loc,
               link := finalLink "https://www.naukri.com" c.link, source := "Naukri",
               scraped_at := now, description := "" }
      | _, _ => none
    else none

/-- The Naukri card loop. -/
def scrapeNaukriCards (primary : List String) (cards : List RawCard) (maxJobs : Nat)
    (now : String) : List JobRecord :=
  (cards.take maxJobs).filterMap (naukriCardRecord primary now)

/-! ### Description cleaning and fetching -/

/-- One rewrite step of `/\n+/g → '\n'`: collapse runs of newlines. -/
def collapseNewlines : List Char → List Char
  | [] => []
  | [c] => [c]
  | a :: b :: rest =>
    if a == '\n' && b == '\n' then collapseNewlines (b :: rest)
    else a :: collapseNewlines (b :: rest)

/-- Fuel-driven rewrite of `/\s{2,}/g → ' '`: a maximal run of two or more
whitespace characters becomes a single ASCII space; isolated whitespace
characters are preserved.  The fuel (initially the list length, which bounds
the number of steps) keeps the recursion structural. -/
def collapseSpacesFuel : Nat → List Char → List Char
  | 0, l => l
  | _ + 1, [] => []
  | _ + 1, [c] => [c]
  | fuel + 1, a :: b :: rest =>
    if isJsSpace a && isJsSpace b then collapseSpacesFuel fuel (' ' :: rest)
    else a :: collapseSpacesFuel fuel (b :: rest)

/-- `/\s{2,}/g → ' '` on a character list. -/
def collapseSpaces (l : List Char) : List Char :=
  collapseSpacesFuel l.length l

/-- `cleanText(input)`: `\r`, `\t`, NBSP become spaces, newline runs collapse
to one newline, whitespace runs collapse to one space, then trim; empty/falsy
input yields the empty string. -/
def cleanText (s : String) : String :=
  if s == "" then ""
  else
    let step1 := s.data.map (fun ch => if ch == '\r' then ' ' else ch)
    let step2 := collapseNewlines step1
    let step3 := step2.map (fun ch => if ch == '\t' then ' ' else ch)
    let step4 := step3.map (fun ch => if ch == ' ' then ' ' else ch)
    String.mk (jsTrim (collapseSpaces step4))

/-- The sentinel description stored on any enrichment failure. -/
def descSentinel : String := "Description not available"

/-- The outcome of navigating to a job link and extracting its description
text: either some final text was obtained (selector match or whole-body
fallback), or an error was thrown along the way. -/
inductive FetchOutcome where
  | success (text : String)
  | failure
deriving DecidableEq

/-- `cleanText(text).slice(0, 4000)`. -/
def cleanedTrunc (text : String) : String :=
  String.mk ((cleanText text).data.take 4000)

/-- `fetchJobDescription`: on an exception return the sentinel; otherwise
return the cleaned, truncated text, or the sentinel if that is empty
(`cleanText(text).slice(0, 4000) || 'Description not available'`). -/
def fetchJobDescription (outcome : FetchOutcome) : String :=
  match outcome with
  | FetchOutcome.failure => descSentinel
  | FetchOutcome.success text =>
    if cleanedTrunc text == "" then descSentinel else cleanedTrunc text

/-! ### The enrichment worker pool

`enrichJobsWithDescriptions(jobs, site)` caps the jobs list, then runs a
worker pool: `next()` is a `while (active < concurrency && index < targets.length)`
loop that starts one fetch per iteration; each fetch's `finally` decrements
`active`, increments `completed`, resolves the promise when
`completed === targets.length`, and otherwise calls `next()` again.

The embedding makes the interleaving explicit: `poolStartState` is the `next()`
loop (fuelled to keep the recursion structural — each iteration increments
`index`, so `n - index` iterations always suffice); `poolComplete i` is the
`then`/`finally` callback of the in-flight fetch for target `i`; a `schedule`
lists the order in which the environment completes in-flight fetches.  The
description computed for target `i` is written into the record at index `i`
of the jobs list, mirroring the by-reference write `job.description = desc`. -/

/-- The mutable state of one `enrichJobsWithDescriptions` call. -/
structure PoolState where
  active : Nat
  index : Nat
  completed : Nat
  inFlight : List Nat
  written : List (Nat × String)
  resolved : Bool
deriving DecidableEq, Repr

/-- The state before `next()` first runs. -/
def initPoolState : PoolState :=
  { active := 0, index := 0, completed := 0, inFlight := [], written := [], resolved := false }

/-- The `while (active < concurrency && index < targets.length)` loop of
`next()`: start the fetch for `targets[index]`, increment `active` and
`index`. -/
def poolStartAux (c n : Nat) : Nat → PoolState → PoolState
  | 0, s => s
  | fuel + 1, s =>
    if s.active < c ∧ s.index < n then
      poolStartAux c n fuel
        { s with active := s.active + 1, index := s.index + 1,
                 inFlight := s.inFlight ++ [s.index] }
    else s

/-- `next()`: run the start loop to quiescence (`n - s.index` fuel always
suffices since each iteration increments `index` and the guard requires
`index < n`). -/
def poolStartState (c n : Nat) (s : PoolState) : PoolState :=
  poolStartAux c n (n - s.index) s

/-- The completion callback of the in-flight fetch for target `i`: write the
description (`job.description = desc`), decrement `active`, increment
`completed`; resolve if everything settled, else re-run `next()`. -/
def poolComplete (c n : Nat) (res : Nat → String) (i : Nat) (s : PoolState) : PoolState :=
  let s1 : PoolState :=
    { s with active := s.active - 1, completed := s.completed + 1,
             inFlight := s.inFlight.erase i,
             written := s.written ++ [(i, res i)] }
  if s1.completed = n then { s1 with resolved := true } else poolStartState c n s1

/-- Run a completion schedule from a given state. -/
def poolRunFrom (c n : Nat) (res : Nat → String) (s : PoolState) (sched : List Nat) :
    PoolState :=
  sched.foldl (fun t i => poolComplete c n res i t) s

/-- A schedule is valid from a state when every scheduled completion is
actually in flight at its turn (the environment can only complete a fetch
that has been started and has not yet completed). -/
def validFrom (c n : Nat) (res : Nat → String) : PoolState → List Nat → Bool
  | _, [] => true
  | s, i :: rest =>
    decide (i ∈ s.inFlight) && validFrom c n res (poolComplete c n res i s) rest

/-- Apply the recorded description writes to the full jobs list: the write for
target `i` mutates the record at position `i` (targets are a prefix of the
jobs list and writes go to records by identity). -/
def applyDescs (jobs : List JobRecord) (written : List (Nat × String)) : List JobRecord :=
  jobs.enum.map (fun p =>
    match written.lookup p.1 with
    | some d => { p.2 with description := d }
    | none => p.2)

/-- JavaScript `x || d` for an optional numeric config value (`undefined` and
`0` are falsy and fall back to the default). -/
def resolveOr (v : Option Nat) (d : Nat) : Nat :=
  match v with
  | none => d
  | some k => if k = 0 then d else k

/-- `targets = jobs.slice(0, Math.min(limit, jobs.length))`, with
`limit = config.scraping.max_detail_fetch || 20`; the number of capped
records. -/
def enrichCap (jobs : List JobRecord) (cfgLimit : Option Nat) : Nat :=
  min (resolveOr cfgLimit 20) jobs.length

/-- The concurrency cap `config.scraping.detail_concurrency || 3`. -/
def enrichConc (cfgConc : Option Nat) : Nat :=
  resolveOr cfgConc 3

/-- The description that the fetch for target `i` produces, given the
environment's outcome for that navigation (`fetchJobDescription` never
rejects, so every settled fetch yields a string). -/
def enrichRes (outcomes : Nat → FetchOutcome) : Nat → String :=
  fun i => fetchJobDescription (outcomes i)

/-- The pool state after the initial `next()` and a given completion
schedule. -/
def enrichRun (jobs : List JobRecord) (cfgLimit cfgConc : Option Nat)
    (outcomes : Nat → FetchOutcome) (sched : List Nat) : PoolState :=
  poolRunFrom (enrichConc cfgConc) (enrichCap jobs cfgLimit) (enrichRes outcomes)
    (poolStartState (enrichConc cfgConc) (enrichCap jobs cfgLimit) initPoolState) sched

/-- Whether a completion schedule is valid for this call. -/
def enrichValid (jobs : List JobRecord) (cfgLimit cfgConc : Option Nat)
    (outcomes : Nat → FetchOutcome) (sched : List Nat) : Bool :=
  validFrom (enrichConc cfgConc) (enrichCap jobs cfgLimit) (enrichRes outcomes)
    (poolStartState (enrichConc cfgConc) (enrichCap jobs cfgLimit) initPoolState) sched

/-- The jobs list as mutated by `enrichJobsWithDescriptions` under a given
completion schedule. -/
def enrichJobsWithDescriptions (jobs : List JobRecord) (cfgLimit cfgConc : Option Nat)
    (outcomes : Nat → FetchOutcome) (sched : List Nat) : List JobRecord :=
  applyDescs jobs (enrichRun jobs cfgLimit cfgConc outcomes sched).written

/-- Every pool state reached during the call: the state after the initial
`next()`, and the state after each scheduled completion. -/
def enrichStates (jobs : List JobRecord) (cfgLimit cfgConc : Option Nat)
    (outcomes : Nat → FetchOutcome) (sched : List Nat) : List PoolState :=
  List.scanl (fun s i => poolComplete (enrichConc cfgConc) (enrichCap jobs cfgLimit)
      (enrichRes outcomes) i s)
    (poolStartState (enrichConc cfgConc) (enrichCap jobs cfgLimit) initPoolState) sched

/-- All fields of a record except the description. -/
def stripDescription (r : JobRecord) : String × String × String × String × String × String :=
  (r.title, r.company, r.location, r.link, r.source, r.scraped_at)

/-- The invariant maintained by the worker pool. -/
structure PoolInv (c n : Nat) (res : Nat → String) (s : PoolState) : Prop where
  activeEq : s.active = s.inFlight.length
  flightNodup : s.inFlight.Nodup
  flightLt : ∀ i ∈ s.inFlight, i < s.index
  indexLe : s.index ≤ n
  countEq : s.completed + s.inFlight.length = s.index
  writtenLen : s.written.length = s.completed
  writtenVal : ∀ p ∈ s.written, p.2 = res p.1
  writtenLt : ∀ p ∈ s.written, p.1 < s.index
  writtenNodup : (s.written.map Prod.fst).Nodup
  writtenFlight : ∀ p ∈ s.written, p.1 ∉ s.inFlight
  activeLe : s.active ≤ c
  resolvedIff : s.resolved = true ↔ (s.completed = n ∧ 0 < n)

/-! ### Concrete records used in examples and witnesses -/

def jobEngineerX : JobRecord :=
  { title := "Engineer", company := "X", location := "", link := "", source := "",
    scraped_at := "", description := "" }

def jobEngineerXLower : JobRecord :=
  { title := "engineer", company := "x", location := "", link := "", source := "",
    scraped_at := "", description := "" }

def wJob (t : String) : JobRecord :=
  { title := t, company := "Co", location := "Delhi", link := "http://x", source := "Test",
    scraped_at := "now", description := "" }

def wJobDone (t : String) : JobRecord :=
  { title := t, company := "Co", location := "Delhi", link := "http://x", source := "Test",
    scraped_at := "now", description := descSentinel }

def wJobs10 : List JobRecord :=
  [wJob "a", wJob "b", wJob "c", wJob "d", wJob "e", wJob "f", wJob "g", wJob "h",
   wJob "i", wJob "j"]

def wJobs5 : List JobRecord :=
  [wJob "a", wJob "b", wJob "c", wJob "d", wJob "e"]

def wOutcome : Nat → FetchOutcome := fun _ => FetchOutcome.failure

def wSched10 : List Nat := [0, 1, 2, 3, 4, 5, 6, 7, 8, 9]

/-! ### Basic lemmas about keys and the dedup step -/

theorem sameKey_iff (a b : JobRecord) : sameKey a b = true ↔ jobKey a = jobKey b := by
  simp [sameKey, jobKey, Prod.ext_iff]

theorem sameKey_self (a : JobRecord) : sameKey a a = true := by
  simp [sameKey]

/-- If `q` holds at the head of the middle element, `findIdx` over
`pre ++ x :: rest` lands exactly at `pre.length` iff `q` fails on all of
`pre`. -/
theorem findIdx_append_cons_self {α : Type} (q : α → Bool) (pre rest : List α) (x : α)
    (hx : q x = true) :
    ((pre ++ x :: rest).findIdx q = pre.length) ↔ pre.all (fun p => !(q p)) = true := by
  induction pre with
  | nil => simp [List.findIdx_cons, hx]
  | cons p pre ih =>
    cases hq : q p with
    | true => simp [List.findIdx_cons, hq]
    | false => simpa [List.findIdx_cons, hq] using ih

theorem dedup_go (pre l : List JobRecord) :
    ((List.enumFrom pre.length l).filter
        (fun ij => ij.1 == (pre ++ l).findIdx (fun j => sameKey j ij.2))).map Prod.snd
      = keepFirst pre l := by
  induction l generalizing pre with
  | nil => simp [keepFirst, List.enumFrom]
  | cons x rest ih =>
    have hx : sameKey x x = true := sameKey_self x
    have hsplit : pre ++ x :: rest = (pre ++ [x]) ++ rest := by
      simp
    have hlen : (pre ++ [x]).length = pre.length + 1 := by simp
    have htail :
        ((List.enumFrom (pre.length + 1) rest).filter
            (fun ij => ij.1 == (pre ++ x :: rest).findIdx (fun j => sameKey j ij.2))).map Prod.snd
          = keepFirst (pre ++ [x]) rest := by
      rw [hsplit, ← hlen]
      exact ih (pre ++ [x])
    by_cases hall : pre.all (fun p => !(sameKey p x)) = true
    · have hidx : (pre ++ x :: rest).findIdx (fun j => sameKey j x) = pre.length :=
        (findIdx_append_cons_self (fun j => sameKey j x) pre rest x hx).mpr hall
      simp only [List.enumFrom, List.filter_cons, hidx, beq_self_eq_true, if_pos,
        List.map_cons, keepFirst, hall]
      rw [htail]
    · have hidx : (pre ++ x :: rest).findIdx (fun j => sameKey j x) ≠ pre.length := by
        intro h
        exact hall ((findIdx_append_cons_self (fun j => sameKey j x) pre rest x hx).mp h)
      have hbeq : (pre.length == (pre ++ x :: rest).findIdx (fun j => sameKey j x)) = false := by
        simpa [beq_iff_eq] using fun h => hidx h.symm
      simp only [List.enumFrom, List.filter_cons, hbeq, if_neg, Bool.false_eq_true,
        not_false_iff, keepFirst, hall, if_false]
      rw [htail]

theorem dedupJobs_eq_keepFirst (l : List JobRecord) : dedupJobs l = keepFirst [] l := by
  have h := dedup_go [] l
  simpa [dedupJobs, List.enum_eq_enumFrom] using h

theorem keepFirst_countP (k : String × String) (l pre : List JobRecord) :
    (keepFirst pre l).countP (fun j => jobKey j == k) =
      if pre.any (fun p => jobKey p == k) then 0
      else min 1 (l.countP (fun j => jobKey j == k)) := by
  induction l generalizing pre with
  | nil => simp [keepFirst]
  | cons x rest ih =>
    have hkeycase := ih (pre ++ [x])
    by_cases hall : pre.all (fun p => !(sameKey p x)) = true
    · have hprenotx : ∀ p ∈ pre, jobKey p ≠ jobKey x := by
        intro p hp hk
        have h1 := (List.all_eq_true.mp hall) p hp
        rw [(sameKey_iff p x).mpr hk] at h1
        exact absurd h1 (by simp)
      by_cases hxk : jobKey x = k
      · have hpre : pre.any (fun p => jobKey p == k) = false := by
          rw [List.any_eq_false]
          intro p hp
          simpa [beq_iff_eq, hxk] using hprenotx p hp
        have happ : (pre ++ [x]).any (fun p => jobKey p == k) = true := by
          simp [List.any_append, hxk]
        simp [keepFirst, hall, List.countP_cons, hxk, hpre, hkeycase, happ,
          Nat.min_def]
      · have happ : (pre ++ [x]).any (fun p => jobKey p == k)
            = pre.any (fun p => jobKey p == k) := by
          simp [List.any_append, hxk]
        simp [keepFirst, hall, List.countP_cons, hxk, hkeycase, happ]
    · have hex : ∃ p ∈ pre, sameKey p x = true := by
        rcases List.all_eq_false.mp (Bool.eq_false_iff.mpr hall) with ⟨p, hp, hpx⟩
        exact ⟨p, hp, by simpa using hpx⟩
      by_cases hxk : jobKey x = k
      · have hpre : pre.any (fun p => jobKey p == k) = true := by
          rcases hex with ⟨p, hp, hpx⟩
          rw [List.any_eq_true]
          exact ⟨p, hp, by simp [beq_iff_eq, (sameKey_iff p x).mp hpx, hxk]⟩
        have happ : (pre ++ [x]).any (fun p => jobKey p == k) = true := by
          simp [List.any_append, hxk]
        simp [keepFirst, hall, hkeycase, happ, hpre]
      · have happ : (pre ++ [x]).any (fun p => jobKey p == k)
            = pre.any (fun p => jobKey p == k) := by
          simp [List.any_append, hxk]
        simp [keepFirst, hall, List.countP_cons, hxk, hkeycase, happ]

theorem keepFirst_find (k : String × String) (l pre : List JobRecord) :
    (keepFirst pre l).find? (fun j => jobKey j == k) =
      if pre.any (fun p => jobKey p == k) then none
      else l.find? (fun j => jobKey j == k) := by
  induction l generalizing pre with
  | nil => simp [keepFirst]
  | cons x rest ih =>
    have hkeycase := ih (pre ++ [x])
    by_cases hall : pre.all (fun p => !(sameKey p x)) = true
    · have hprenotx : ∀ p ∈ pre, jobKey p ≠ jobKey x := by
        intro p hp hk
        have h1 := (List.all_eq_true.mp hall) p hp
        rw [(sameKey_iff p x).mpr hk] at h1
        exact absurd h1 (by simp)
      by_cases hxk : jobKey x = k
      · have hpre : pre.any (fun p => jobKey p == k) = false := by
          rw [List.any_eq_false]
          intro p hp
          simpa [beq_iff_eq, hxk] using hprenotx p hp
        simp [keepFirst, hall, List.find?_cons, hxk, hpre]
      · have happ : (pre ++ [x]).any (fun p => jobKey p == k)
            = pre.any (fun p => jobKey p == k) := by
          simp [List.any_append, hxk]
        simp [keepFirst, hall, List.find?_cons, hxk, hkeycase, happ]
    · have hex : ∃ p ∈ pre, sameKey p x = true := by
        rcases List.all_eq_false.mp (Bool.eq_false_iff.mpr hall) with ⟨p, hp, hpx⟩
        exact ⟨p, hp, by simpa using hpx⟩
      by_cases hxk : jobKey x = k
      · have hpre : pre.any (fun p => jobKey p == k) = true := by
          rcases hex with ⟨p, hp, hpx⟩
          rw [List.any_eq_true]
          exact ⟨p, hp, by simp [beq_iff_eq, (sameKey_iff p x).mp hpx, hxk]⟩
        have happ : (pre ++ [x]).any (fun p => jobKey p == k) = true := by
          simp [List.any_append, hxk]
        simp [keepFirst, hall, hkeycase, happ, hpre, List.find?_cons, hxk]
      · have happ : (pre ++ [x]).any (fun p => jobKey p == k)
            = pre.any (fun p => jobKey p == k) := by
          simp [List.any_append, hxk]
        simp [keepFirst, hall, List.find?_cons, hxk, hkeycase, happ]

theorem keepFirst_not_pre (l pre : List JobRecord) :
    ∀ y ∈ keepFirst pre l, ∀ p ∈ pre, sameKey p y = false := by
  induction l generalizing pre with
  | nil => simp [keepFirst]
  | cons x rest ih =>
    by_cases hall : pre.all (fun p => !(sameKey p x)) = true
    · intro y hy p hp
      simp only [keepFirst, hall, if_pos, List.mem_cons] at hy
      rcases hy with rfl | hy
      · simpa using (List.all_eq_true.mp hall) p hp
      · exact ih (pre ++ [x]) y hy p (by simp [hp])
    · intro y hy p hp
      simp only [keepFirst, hall, if_neg, Bool.false_eq_true, not_false_iff] at hy
      exact ih (pre ++ [x]) y hy p (by simp [hp])

theorem keepFirst_pairwise (l pre : List JobRecord) :
    (keepFirst pre l).Pairwise (fun a b => sameKey a b = false) := by
  induction l generalizing pre with
  | nil => simp [keepFirst]
  | cons x rest ih =>
    by_cases hall : pre.all (fun p => !(sameKey p x)) = true
    · simp only [keepFirst, hall, if_pos]
      refine List.Pairwise.cons ?_ (ih (pre ++ [x]))
      intro y hy
      exact keepFirst_not_pre rest (pre ++ [x]) y hy x (by simp)
    · simp only [keepFirst, hall, if_neg, Bool.false_eq_true, not_false_iff]
      exact ih (pre ++ [x])

theorem keepFirst_of_pairwise (l pre : List JobRecord)
    (hl : l.Pairwise (fun a b => sameKey a b = false))
    (hpre : ∀ x ∈ l, ∀ p ∈ pre, sameKey p x = false) :
    keepFirst pre l = l := by
  induction l generalizing pre with
  | nil => simp [keepFirst]
  | cons x rest ih =>
    have hall : pre.all (fun p => !(sameKey p x)) = true := by
      rw [List.all_eq_true]
      intro p hp
      simp [hpre x (by simp) p hp]
    rw [keepFirst, if_pos hall]
    congr 1
    refine ih (pre ++ [x]) (List.Pairwise.of_cons hl) ?_
    intro y hy p hp
    rcases List.mem_append.mp hp with hp | hp
    · exact hpre y (by simp [hy]) p hp
    · rcases List.mem_singleton.mp hp with rfl
      exact (List.pairwise_cons.mp hl).1 y hy

/-! ### Invariant lemmas for the worker pool -/

theorem poolStartAux_written (c n : Nat) (fuel : Nat) (s : PoolState) :
    (poolStartAux c n fuel s).written = s.written := by
  induction fuel generalizing s with
  | zero => rfl
  | succ fuel ih =>
    rw [poolStartAux]
    split
    · rw [ih]
    · rfl

theorem poolStartAux_resolved (c n : Nat) (fuel : Nat) (s : PoolState) :
    (poolStartAux c n fuel s).resolved = s.resolved := by
  induction fuel generalizing s with
  | zero => rfl
  | succ fuel ih =>
    rw [poolStartAux]
    split
    · rw [ih]
    · rfl

theorem poolStartAux_completed (c n : Nat) (fuel : Nat) (s : PoolState) :
    (poolStartAux c n fuel s).completed = s.completed := by
  induction fuel generalizing s with
  | zero => rfl
  | succ fuel ih =>
    rw [poolStartAux]
    split
    · rw [ih]
    · rfl

theorem poolStartAux_inv (c n : Nat) (res : Nat → String) (fuel : Nat) (s : PoolState)
    (h : PoolInv c n res s) : PoolInv c n res (poolStartAux c n fuel s) := by
  induction fuel generalizing s with
  | zero => exact h
  | succ fuel ih =>
    rw [poolStartAux]
    split
    · rename_i hguard
      refine ih _ ?_
      refine ⟨?_, ?_, ?_, ?_, ?_, ?_, ?_, ?_, ?_, ?_, ?_, ?_⟩
      · simpa using h.activeEq
      · have hnotmem : s.index ∉ s.inFlight := fun hm => Nat.lt_irrefl _ (h.flightLt _ hm)
        rw [List.nodup_append]
        refine ⟨h.flightNodup, List.nodup_singleton _, ?_⟩
        intro a ha hb
        rcases List.mem_singleton.mp hb with rfl
        exact hnotmem ha
      · intro i hi
        rcases List.mem_append.mp hi with hi | hi
        · exact Nat.lt_succ_of_lt (h.flightLt i hi)
        · rcases List.mem_singleton.mp hi with rfl
          exact Nat.lt_succ_self _
      · exact hguard.2
      · show s.completed + (s.inFlight ++ [s.index]).length = s.index + 1
        have := h.countEq
        simp only [List.length_append, List.length_singleton]
        omega
      · exact h.writtenLen
      · exact h.writtenVal
      · intro p hp
        exact Nat.lt_succ_of_lt (h.writtenLt p hp)
      · exact h.writtenNodup
      · intro p hp
        have hlt := h.writtenLt p hp
        intro hm
        rcases List.mem_append.mp hm with hm | hm
        · exact h.writtenFlight p hp hm
        · rcases List.mem_singleton.mp hm with hm
          rw [hm] at hlt
          exact Nat.lt_irrefl _ hlt
      · exact hguard.1
      · exact h.resolvedIff
    · exact h

theorem poolStartAux_guard (c n : Nat) (fuel : Nat) (s : PoolState)
    (hfuel : n - s.index ≤ fuel) :
    ¬((poolStartAux c n fuel s).active < c ∧ (poolStartAux c n fuel s).index < n) := by
  induction fuel generalizing s with
  | zero =>
    rw [poolStartAux]
    intro hc
    have : n ≤ s.index := Nat.le_of_sub_eq_zero (Nat.le_zero.mp hfuel)
    exact Nat.not_lt_of_le this hc.2
  | succ fuel ih =>
    rw [poolStartAux]
    split
    · rename_i hguard
      refine ih _ ?_
      show n - (s.index + 1) ≤ fuel
      have h1 : s.index < n := hguard.2
      omega
    · rename_i hguard
      exact hguard

theorem poolStartState_inv (c n : Nat) (res : Nat → String) (s : PoolState)
    (h : PoolInv c n res s) : PoolInv c n res (poolStartState c n s) :=
  poolStartAux_inv c n res _ s h

theorem initPoolState_inv (c n : Nat) (res : Nat → String) :
    PoolInv c n res initPoolState := by
  refine ⟨rfl, List.nodup_nil, ?_, Nat.zero_le n, rfl, rfl, ?_, ?_, List.nodup_nil, ?_,
    Nat.zero_le c, ?_⟩ <;> simp [initPoolState]
  omega

theorem poolComplete_completed (c n : Nat) (res : Nat → String) (i : Nat) (s : PoolState) :
    (poolComplete c n res i s).completed = s.completed + 1 := by
  rw [poolComplete]
  split
  · rfl
  · exact poolStartAux_completed c n _ _

theorem poolComplete_inv (c n : Nat) (res : Nat → String) (i : Nat) (s : PoolState)
    (h : PoolInv c n res s) (hi : i ∈ s.inFlight) :
    PoolInv c n res (poolComplete c n res i s) := by
  have hflen : 0 < s.inFlight.length := List.length_pos_of_mem hi
  have hcomplt : s.completed < n := by
    have := h.countEq
    have := h.indexLe
    omega
  have hresolved : s.resolved = false := by
    cases hres : s.resolved with
    | false => rfl
    | true =>
      have := (h.resolvedIff.mp hres).1
      omega
  have herlen : (s.inFlight.erase i).length = s.inFlight.length - 1 :=
    List.length_erase_of_mem hi
  have hinotw : i ∉ s.written.map Prod.fst := by
    intro hm
    rcases List.mem_map.mp hm with ⟨p, hp, hpi⟩
    exact h.writtenFlight p hp (hpi ▸ hi)
  have f1 : s.active - 1 = (s.inFlight.erase i).length := by
    rw [herlen, h.activeEq]
  have f2 : (s.inFlight.erase i).Nodup := h.flightNodup.erase i
  have f3 : ∀ j ∈ s.inFlight.erase i, j < s.index := by
    intro j hj
    exact h.flightLt j (List.mem_of_mem_erase hj)
  have f5 : s.completed + 1 + (s.inFlight.erase i).length = s.index := by
    rw [herlen]
    have := h.countEq
    omega
  have f6 : (s.written ++ [(i, res i)]).length = s.completed + 1 := by
    simp [h.writtenLen]
  have f7 : ∀ p ∈ s.written ++ [(i, res i)], p.2 = res p.1 := by
    intro p hp
    rcases List.mem_append.mp hp with hp | hp
    · exact h.writtenVal p hp
    · rcases List.mem_singleton.mp hp with rfl
      rfl
  have f8 : ∀ p ∈ s.written ++ [(i, res i)], p.1 < s.index := by
    intro p hp
    rcases List.mem_append.mp hp with hp | hp
    · exact h.writtenLt p hp
    · rcases List.mem_singleton.mp hp with rfl
      exact h.flightLt i hi
  have f9 : ((s.written ++ [(i, res i)]).map Prod.fst).Nodup := by
    rw [List.map_append]
    rw [List.nodup_append]
    refine ⟨h.writtenNodup, List.nodup_singleton _, ?_⟩
    intro a ha hb
    rcases List.mem_singleton.mp hb with rfl
    exact hinotw ha
  have f10 : ∀ p ∈ s.written ++ [(i, res i)], p.1 ∉ s.inFlight.erase i := by
    intro p hp hm
    have hpn : p.1 ∈ s.inFlight := List.mem_of_mem_erase hm
    rcases List.mem_append.mp hp with hp | hp
    · exact h.writtenFlight p hp hpn
    · rcases List.mem_singleton.mp hp with rfl
      exact absurd hm (h.flightNodup.not_mem_erase)
  have f11 : s.active - 1 ≤ c := Nat.le_trans (Nat.sub_le _ _) h.activeLe
  rw [poolComplete]
  split
  · rename_i hdone
    have hdone1 : s.completed + 1 = n := hdone
    have hn : 0 < n := by omega
    exact ⟨f1, f2, f3, h.indexLe, f5, f6, f7, f8, f9, f10, f11, by
      constructor
      · intro _
        exact ⟨hdone1, hn⟩
      · intro _
        rfl⟩
  · rename_i hnotdone
    have hnotdone1 : ¬(s.completed + 1 = n) := hnotdone
    refine poolStartState_inv c n res _ ?_
    exact ⟨f1, f2, f3, h.indexLe, f5, f6, f7, f8, f9, f10, f11, by
      rw [hresolved]
      constructor
      · intro hfalse
        exact absurd hfalse (by simp)
      · intro hc
        exact absurd hc.1 hnotdone1⟩

theorem poolRunFrom_inv (c n : Nat) (res : Nat → String) (sched : List Nat) (s : PoolState)
    (hv : validFrom c n res s sched = true) (h : PoolInv c n res s) :
    PoolInv c n res (poolRunFrom c n res s sched) := by
  induction sched generalizing s with
  | nil => exact h
  | cons i rest ih =>
    rw [validFrom, Bool.and_eq_true, decide_eq_true_eq] at hv
    exact ih _ hv.2 (poolComplete_inv c n res i s h hv.1)

theorem poolRunFrom_completed (c n : Nat) (res : Nat → String) (sched : List Nat)
    (s : PoolState) :
    (poolRunFrom c n res s sched).completed = s.completed + sched.length := by
  induction sched generalizing s with
  | nil => rfl
  | cons i rest ih =>
    show (poolRunFrom c n res (poolComplete c n res i s) rest).completed = _
    rw [ih, poolComplete_completed]
    simp [List.length_cons]
    omega

theorem poolStartState_resolved (c n : Nat) (s : PoolState) :
    (poolStartState c n s).resolved = s.resolved :=
  poolStartAux_resolved c n _ s

theorem poolStartState_completed (c n : Nat) (s : PoolState) :
    (poolStartState c n s).completed = s.completed :=
  poolStartAux_completed c n _ s

theorem poolComplete_resolved_of_pos (c : Nat) (res : Nat → String) (i : Nat) (s : PoolState)
    (h : s.resolved = false) : (poolComplete c 0 res i s).resolved = false := by
  rw [poolComplete]
  split
  · rename_i hdone
    have hdone1 : s.completed + 1 = 0 := hdone
    exact absurd hdone1 (by omega)
  · rw [poolStartState_resolved]
    exact h

theorem poolRunFrom_resolved_zero (c : Nat) (res : Nat → String) (sched : List Nat)
    (s : PoolState) (h : s.resolved = false) :
    (poolRunFrom c 0 res s sched).resolved = false := by
  induction sched generalizing s with
  | nil => exact h
  | cons i rest ih =>
    exact ih _ (poolComplete_resolved_of_pos c res i s h)

/-! ### Lookup and coverage helpers for the recorded writes -/

theorem lookup_val (res : Nat → String) (w : List (Nat × String))
    (hval : ∀ p ∈ w, p.2 = res p.1) (a : Nat) :
    w.lookup a = none ∨ w.lookup a = some (res a) := by
  induction w with
  | nil => exact Or.inl rfl
  | cons q w ih =>
    rw [List.lookup]
    by_cases hq : a = q.1
    · right
      have hv : q.2 = res q.1 := hval q (by simp)
      simp [hq, hv]
    · have hbeq : (a == q.1) = false := by simpa using hq
      rw [hbeq]
      exact ih (fun p hp => hval p (by simp [hp]))

theorem lookup_none_iff (w : List (Nat × String)) (a : Nat) :
    w.lookup a = none ↔ a ∉ w.map Prod.fst := by
  induction w with
  | nil => simp
  | cons q w ih =>
    rw [List.lookup]
    by_cases hq : a = q.1
    · simp [hq]
    · have hbeq : (a == q.1) = false := by simpa using hq
      rw [hbeq]
      simp [ih, hq]

theorem mem_of_nodup_bounded (n : Nat) (l : List Nat) (hn : l.Nodup)
    (hlt : ∀ x ∈ l, x < n) (hlen : l.length = n) : ∀ i, i < n → i ∈ l := by
  intro i hin
  have hsub : l.toFinset ⊆ Finset.range n := by
    intro x hx
    rw [Finset.mem_range]
    exact hlt x (List.mem_toFinset.mp hx)
  have hcard : (Finset.range n).card ≤ l.toFinset.card := by
    rw [List.toFinset_card_of_nodup hn, hlen, Finset.card_range]
  have heq : l.toFinset = Finset.range n := Finset.eq_of_subset_of_card_le hsub hcard
  have : i ∈ l.toFinset := heq ▸ Finset.mem_range.mpr hin
  exact List.mem_toFinset.mp this

/-! ### The final state of a complete run and the closed form of the result -/

theorem enrich_final_state (jobs : List JobRecord) (cfgLimit cfgConc : Option Nat)
    (outcomes : Nat → FetchOutcome) (sched : List Nat)
    (hv : enrichValid jobs cfgLimit cfgConc outcomes sched = true)
    (hlen : sched.length = enrichCap jobs cfgLimit) :
    PoolInv (enrichConc cfgConc) (enrichCap jobs cfgLimit) (enrichRes outcomes)
        (enrichRun jobs cfgLimit cfgConc outcomes sched)
      ∧ (enrichRun jobs cfgLimit cfgConc outcomes sched).completed = enrichCap jobs cfgLimit
      ∧ (enrichRun jobs cfgLimit cfgConc outcomes sched).inFlight = [] := by
  set c := enrichConc cfgConc
  set n := enrichCap jobs cfgLimit
  set res := enrichRes outcomes
  have hs0 : PoolInv c n res (poolStartState c n initPoolState) :=
    poolStartState_inv c n res _ (initPoolState_inv c n res)
  have hinv : PoolInv c n res (enrichRun jobs cfgLimit cfgConc outcomes sched) :=
    poolRunFrom_inv c n res sched _ hv hs0
  have hcompleted : (enrichRun jobs cfgLimit cfgConc outcomes sched).completed = n := by
    show (poolRunFrom c n res (poolStartState c n initPoolState) sched).completed = n
    rw [poolRunFrom_completed]
    rw [poolStartState_completed]
    simpa [initPoolState] using hlen
  refine ⟨hinv, hcompleted, ?_⟩
  have h1 := hinv.countEq
  have h2 := hinv.indexLe
  rw [hcompleted] at h1
  have : (enrichRun jobs cfgLimit cfgConc outcomes sched).inFlight.length = 0 := by omega
  exact List.length_eq_zero.mp this

theorem enrich_written_facts (jobs : List JobRecord) (cfgLimit cfgConc : Option Nat)
    (outcomes : Nat → FetchOutcome) (sched : List Nat)
    (hv : enrichValid jobs cfgLimit cfgConc outcomes sched = true)
    (hlen : sched.length = enrichCap jobs cfgLimit) :
    (∀ i, i < enrichCap jobs cfgLimit →
        (enrichRun jobs cfgLimit cfgConc outcomes sched).written.lookup i
          = some (enrichRes outcomes i))
      ∧ (∀ i, enrichCap jobs cfgLimit ≤ i →
        (enrichRun jobs cfgLimit cfgConc outcomes sched).written.lookup i = none) := by
  obtain ⟨hinv, hcompleted, hflight⟩ :=
    enrich_final_state jobs cfgLimit cfgConc outcomes sched hv hlen
  set n := enrichCap jobs cfgLimit
  set w := (enrichRun jobs cfgLimit cfgConc outcomes sched).written
  have hwlen : (w.map Prod.fst).length = n := by
    rw [List.length_map, hinv.writtenLen, hcompleted]
  have hwlt : ∀ x ∈ w.map Prod.fst, x < n := by
    intro x hx
    rcases List.mem_map.mp hx with ⟨p, hp, hpx⟩
    have hidx : (enrichRun jobs cfgLimit cfgConc outcomes sched).index = n := by
      have h1 := hinv.countEq
      rw [hcompleted, hflight] at h1
      simpa using h1.symm
    rw [← hpx, ← hidx]
    exact hinv.writtenLt p hp
  constructor
  · intro i hin
    have hmem : i ∈ w.map Prod.fst :=
      mem_of_nodup_bounded n (w.map Prod.fst) hinv.writtenNodup hwlt hwlen i hin
    rcases lookup_val (enrichRes outcomes) w hinv.writtenVal i with hnone | hsome
    · exact absurd ((lookup_none_iff w i).mp hnone) (by simpa using hmem)
    · exact hsome
  · intro i hin
    rw [lookup_none_iff]
    intro hmem
    exact absurd (hwlt i hmem) (by omega)

theorem enrich_closed_form (jobs : List JobRecord) (cfgLimit cfgConc : Option Nat)
    (outcomes : Nat → FetchOutcome) (sched : List Nat)
    (hv : enrichValid jobs cfgLimit cfgConc outcomes sched = true)
    (hlen : sched.length = enrichCap jobs cfgLimit) :
    enrichJobsWithDescriptions jobs cfgLimit cfgConc outcomes sched =
      jobs.enum.map (fun p =>
        if p.1 < enrichCap jobs cfgLimit
        then { p.2 with description := fetchJobDescription (outcomes p.1) }
        else p.2) := by
  obtain ⟨hlook, hnone⟩ := enrich_written_facts jobs cfgLimit cfgConc outcomes sched hv hlen
  unfold enrichJobsWithDescriptions applyDescs
  refine List.map_congr_left ?_
  intro p _
  by_cases hp : p.1 < enrichCap jobs cfgLimit
  · rw [hlook p.1 hp]
    simp [hp, enrichRes]
  · rw [hnone p.1 (Nat.le_of_not_lt hp)]
    simp [hp]

/-- The states of a valid run all satisfy the invariant. -/
theorem scanl_states_inv (c n : Nat) (res : Nat → String) (sched : List Nat) (s0 : PoolState)
    (hv : validFrom c n res s0 sched = true) (h : PoolInv c n res s0) :
    ∀ s ∈ List.scanl (fun s i => poolComplete c n res i s) s0 sched, PoolInv c n res s := by
  induction sched generalizing s0 with
  | nil =>
    intro s hs
    rw [List.scanl_nil, List.mem_singleton] at hs
    rw [hs]
    exact h
  | cons i rest ih =>
    rw [validFrom, Bool.and_eq_true, decide_eq_true_eq] at hv
    intro s hs
    rw [List.scanl_cons] at hs
    rcases List.mem_cons.mp (by simpa using hs) with hs | hs
    · rw [hs]
      exact h
    · exact ih _ hv.2 (poolComplete_inv c n res i s0 h hv.1) s hs

/-! ### Helpers about `enum`/`enumFrom` for the prefix/suffix claims -/

theorem enumFrom_drop_eq {α : Type} (l : List α) (k m : Nat) :
    (List.enumFrom k l).drop m = List.enumFrom (k + m) (l.drop m) := by
  induction m generalizing k l with
  | zero => simp
  | succ m ih =>
    cases l with
    | nil => simp
    | cons a rest =>
      show (List.enumFrom (k + 1) rest).drop m = _
      rw [ih rest (k + 1)]
      have : k + 1 + m = k + (m + 1) := by omega
      rw [this]
      rfl

theorem mem_enumFrom_le {α : Type} (l : List α) (k : Nat) :
    ∀ p ∈ List.enumFrom k l, k ≤ p.1 := by
  induction l generalizing k with
  | nil => simp
  | cons a rest ih =>
    intro p hp
    rcases List.mem_cons.mp hp with hp | hp
    · rw [hp]
    · exact Nat.le_of_succ_le (ih (k + 1) p hp)

/-! ### Idempotence of JavaScript trim -/

theorem dropWhile_dropWhile {α : Type} (p : α → Bool) (l : List α) :
    (l.dropWhile p).dropWhile p = l.dropWhile p := by
  induction l with
  | nil => rfl
  | cons a rest ih =>
    rw [List.dropWhile_cons]
    split
    · exact ih
    · rename_i hpa
      rw [List.dropWhile_cons]
      rw [if_neg hpa]

theorem dropWhile_head_false {α : Type} (p : α → Bool) (l : List α) (a : α) (rest : List α)
    (h : l.dropWhile p = a :: rest) : p a = false := by
  induction l with
  | nil => exact absurd h (by simp)
  | cons b l ih =>
    rw [List.dropWhile_cons] at h
    by_cases hb : p b = true
    · rw [if_pos hb] at h
      exact ih h
    · rw [if_neg hb] at h
      rcases List.cons.injEq b l a rest ▸ h with ⟨rfl, rfl⟩
      exact Bool.eq_false_iff.mpr hb

theorem getLast?_append_right {α : Type} (l₁ l₂ : List α) (h : l₂ ≠ []) :
    (l₁ ++ l₂).getLast? = l₂.getLast? := by
  rw [List.getLast?_append]
  cases hl : l₂.getLast? with
  | none =>
    exact absurd (List.getLast?_eq_none_iff.mp hl) h
  | some a => rfl

theorem dropWhile_head_of_ne_nil {α : Type} (p : α → Bool) (l : List α)
    (h : l.dropWhile p ≠ []) : ∃ a rest, l.dropWhile p = a :: rest ∧ p a = false := by
  cases hd : l.dropWhile p with
  | nil => exact absurd hd h
  | cons a rest => exact ⟨a, rest, rfl, dropWhile_head_false p l a rest hd⟩

theorem jsTrim_idem (l : List Char) : jsTrim (jsTrim l) = jsTrim l := by
  unfold jsTrim
  set A := l.dropWhile isJsSpace with hA
  set B := A.reverse.dropWhile isJsSpace with hB
  have hstep1 : B.reverse.dropWhile isJsSpace = B.reverse := by
    cases hBr : B.reverse with
    | nil => simp
    | cons a rest =>
      have hBne : B ≠ [] := by
        intro hBnil
        rw [hBnil] at hBr
        exact absurd hBr (by simp)
      have hAne : A.reverse ≠ [] := by
        intro hAnil
        rw [hB, hAnil] at hBne
        exact hBne (by simp)
      have hlast : B.getLast? = A.reverse.getLast? := by
        obtain ⟨w, hw⟩ := List.dropWhile_suffix (l := A.reverse) isJsSpace
        rw [← hB] at hw
        rw [← hw]
        exact (getLast?_append_right w B hBne).symm
      have hArev : A.reverse.getLast? = A.head? := List.getLast?_reverse A
      have hAhead : ∃ a0 rest0, A = a0 :: rest0 ∧ isJsSpace a0 = false := by
        have hAne2 : A ≠ [] := by
          intro h0
          rw [h0] at hAne
          exact hAne (by simp)
        cases hAc : A with
        | nil => exact absurd hAc hAne2
        | cons a0 rest0 =>
          exact ⟨a0, rest0, rfl, dropWhile_head_false isJsSpace l a0 rest0 (hA ▸ hAc)⟩
      obtain ⟨a0, rest0, hAeq, ha0⟩ := hAhead
      have hheadrev : B.reverse.head? = some a0 := by
        rw [List.head?_reverse, hlast, hArev, hAeq]
        rfl
      have ha : a = a0 := by
        rw [hBr] at hheadrev
        simpa using hheadrev
      rw [List.dropWhile_cons]
      rw [if_neg (by rw [ha, ha0]; simp)]
  rw [hstep1]
  rw [List.reverse_reverse]
  rw [dropWhile_dropWhile]

theorem jsTrimStr_idem (s : String) : jsTrimStr (jsTrimStr s) = jsTrimStr s := by
  unfold jsTrimStr
  rw [jsTrim_idem]

/-! ### Frame and suffix helpers for the enrichment result -/

theorem applyDescs_strip (jobs : List JobRecord) (w : List (Nat × String)) :
    (applyDescs jobs w).map stripDescription = jobs.map stripDescription := by
  unfold applyDescs
  rw [List.map_map]
  have hcong : ∀ p ∈ jobs.enum, (stripDescription ∘ fun p : Nat × JobRecord =>
      match w.lookup p.1 with
      | some d => { p.2 with description := d }
      | none => p.2) p = (stripDescription ∘ Prod.snd) p := by
    intro p _
    cases h : w.lookup p.1 with
    | none => simp [Function.comp, h]
    | some d => simp [Function.comp, h, stripDescription]
  rw [List.map_congr_left hcong]
  rw [← List.map_map]
  rw [List.enum_map_snd]

theorem enrich_drop_eq (jobs : List JobRecord) (cfgLimit cfgConc : Option Nat)
    (outcomes : Nat → FetchOutcome) (sched : List Nat)
    (hv : enrichValid jobs cfgLimit cfgConc outcomes sched = true)
    (hlen : sched.length = enrichCap jobs cfgLimit) :
    (enrichJobsWithDescriptions jobs cfgLimit cfgConc outcomes sched).drop
        (enrichCap jobs cfgLimit)
      = jobs.drop (enrichCap jobs cfgLimit) := by
  rw [enrich_closed_form jobs cfgLimit cfgConc outcomes sched hv hlen]
  set n := enrichCap jobs cfgLimit
  rw [← List.map_drop]
  rw [List.enum_eq_enumFrom, enumFrom_drop_eq]
  have hcong : ∀ p ∈ List.enumFrom (0 + n) (jobs.drop n),
      (fun p : Nat × JobRecord =>
        if p.1 < n then { p.2 with description := fetchJobDescription (outcomes p.1) }
        else p.2) p = Prod.snd p := by
    intro p hp
    have hn : n ≤ p.1 := by
      have := mem_enumFrom_le (jobs.drop n) (0 + n) p hp
      omega
    simp only
    rw [if_neg (by omega)]
  rw [List.map_congr_left hcong]
  rw [List.enumFrom_map_snd]

theorem enrich_written_fst (jobs : List JobRecord) (cfgLimit cfgConc : Option Nat)
    (outcomes : Nat → FetchOutcome) (sched : List Nat)
    (hv : enrichValid jobs cfgLimit cfgConc outcomes sched = true)
    (hlen : sched.length = enrichCap jobs cfgLimit) :
    ((enrichRun jobs cfgLimit cfgConc outcomes sched).written.map Prod.fst).length
        = enrichCap jobs cfgLimit
    ∧ ((enrichRun jobs cfgLimit cfgConc outcomes sched).written.map Prod.fst).Nodup
    ∧ (∀ i, i ∈ (enrichRun jobs cfgLimit cfgConc outcomes sched).written.map Prod.fst
        ↔ i < enrichCap jobs cfgLimit) := by
  obtain ⟨hinv, hcompleted, _⟩ := enrich_final_state jobs cfgLimit cfgConc outcomes sched hv hlen
  obtain ⟨hlook, hnone⟩ := enrich_written_facts jobs cfgLimit cfgConc outcomes sched hv hlen
  refine ⟨?_, hinv.writtenNodup, ?_⟩
  · rw [List.length_map, hinv.writtenLen, hcompleted]
  · intro i
    constructor
    · intro hmem
      by_contra hge
      have h0 := hnone i (Nat.le_of_not_lt hge)
      exact absurd hmem (by simpa using (lookup_none_iff _ i).mp h0)
    · intro hlt
      by_contra hmem
      have h0 : (enrichRun jobs cfgLimit cfgConc outcomes sched).written.lookup i = none :=
        (lookup_none_iff _ i).mpr hmem
      rw [hlook i hlt] at h0
      exact absurd h0 (by simp)

theorem linkedInCardRecord_title (now : String) (c : RawCard) (r : JobRecord)
    (h : linkedInCardRecord now c = some r) :
    ∃ t : String, c.title = some t ∧ t ≠ "" ∧ t ≠ "N/A" ∧ jsTrimStr t ≠ ""
      ∧ r.title = jsTrimStr t := by
  unfold linkedInCardRecord at h
  split at h
  · exact absurd h (by simp)
  · rename_i t hct
    split at h
    · rename_i hcond
      simp only [Bool.and_eq_true, bne_iff_ne, ne_eq] at hcond
      split at h
      · rename_i comp loc hcc hcl
        refine ⟨t, hct, hcond.1.1, hcond.1.2, hcond.2, ?_⟩
        have hr := Option.some.inj h
        rw [← hr]
      · exact absurd h (by simp)
    · exact absurd h (by simp)

theorem indeedCardRecord_title (now : String) (c : IndeedRawCard) (r : JobRecord)
    (h : indeedCardRecord now c = some r) :
    ∃ t : String, t ≠ "" ∧ t ≠ "N/A" ∧ jsTrimStr t ≠ "" ∧ r.title = jsTrimStr t := by
  unfold indeedCardRecord at h
  split at h
  · exact absurd h (by simp)
  · rename_i t hct
    split at h
    · rename_i hcond
      simp only [Bool.and_eq_true, bne_iff_ne, ne_eq] at hcond
      split at h
      · rename_i comp loc hcc hcl
        refine ⟨t, hcond.1.1, hcond.1.2, hcond.2, ?_⟩
        have hr := Option.some.inj h
        rw [← hr]
      · exact absurd h (by simp)
    · exact absurd h (by simp)

theorem naukriCardRecord_title (primary : List String) (now : String) (c : RawCard)
    (r : JobRecord) (h : naukriCardRecord primary now c = some r) :
    ∃ t : String, c.title = some t ∧ t ≠ "" ∧ t ≠ "N/A" ∧ r.title = jsTrimStr t := by
  unfold naukriCardRecord at h
  split at h
  · exact absurd h (by simp)
  · rename_i t hct
    split at h
    · rename_i hcond
      simp only [Bool.and_eq_true, bne_iff_ne, ne_eq] at hcond
      split at h
      · rename_i comp loc hcc hcl
        refine ⟨t, hct, hcond.1.1, hcond.1.2, ?_⟩
        have hr := Option.some.inj h
        rw [← hr]
      · exact absurd h (by simp)
    · exact absurd h (by simp)

/-! ### Claim theorems -/

/-- Claim C1: in the concatenated adapter results (fixed order LinkedIn,
Indeed, Naukri), any set of records sharing a case-insensitive
`(title, company)` key is collapsed by `scrapeAllSites` to exactly one
survivor, the first occurrence in concatenation order; in particular the
`Engineer/X` vs `engineer/x` example merges to the first record only. -/
theorem dedup_first_occurrence_per_key :
    (∀ (cl cs : Bool) (l1 l2 l3 : List JobRecord),
        scrapeAllSites true cl cs (SettledResult.fulfilled l1) (SettledResult.fulfilled l2)
          (SettledResult.fulfilled l3) = Except.ok (dedupJobs (l1 ++ l2 ++ l3)))
    ∧ (∀ (l : List JobRecord) (k : String × String),
        (dedupJobs l).countP (fun j => jobKey j == k) =
          min 1 (l.countP (fun j => jobKey j == k)))
    ∧ (∀ (l : List JobRecord) (k : String × String),
        (dedupJobs l).find? (fun j => jobKey j == k) = l.find? (fun j => jobKey j == k))
    ∧ scrapeAllSites true true true (SettledResult.fulfilled [jobEngineerX])
        (SettledResult.fulfilled [jobEngineerXLower]) (SettledResult.fulfilled [])
      = Except.ok [jobEngineerX] := by
  refine ⟨?_, ?_, ?_, ?_⟩
  · intro cl cs l1 l2 l3
    rfl
  · intro l k
    rw [dedupJobs_eq_keepFirst]
    rw [keepFirst_countP k l []]
    simp
  · intro l k
    rw [dedupJobs_eq_keepFirst]
    rw [keepFirst_find k l []]
    simp
  · rfl

/-- Claim C10: the dedup pass is idempotent — deduplicating an
already-deduplicated list returns it unchanged, in order. -/
theorem dedup_idempotent : ∀ l : List JobRecord, dedupJobs (dedupJobs l) = dedupJobs l := by
  intro l
  rw [dedupJobs_eq_keepFirst (dedupJobs l)]
  have hpair : (dedupJobs l).Pairwise (fun a b => sameKey a b = false) := by
    rw [dedupJobs_eq_keepFirst l]
    exact keepFirst_pairwise l []
  refine keepFirst_of_pairwise (dedupJobs l) [] hpair ?_
  intro x _ p hp
  exact absurd hp (List.not_mem_nil p)

/-- Claim C2: `scrapeAllSites` fails exactly when session initialization
fails; a rejected adapter contributes nothing and raises nothing, cookie
failures are invisible to the caller, and an all-empty run returns `ok []`. -/
theorem aggregator_error_iff_session_failure :
    (∀ (cl cs : Bool) (li ind na : SettledResult (List JobRecord)),
        scrapeAllSites false cl cs li ind na = Except.error ())
    ∧ (∀ (cl cs : Bool) (li ind na : SettledResult (List JobRecord)),
        scrapeAllSites true cl cs li ind na
          = Except.ok (dedupJobs (settledValue li ++ settledValue ind ++ settledValue na)))
    ∧ (∀ (cl cs : Bool) (ind na : SettledResult (List JobRecord)),
        scrapeAllSites true cl cs SettledResult.rejected ind na
          = Except.ok (dedupJobs (settledValue ind ++ settledValue na)))
    ∧ (∀ (cl cs : Bool) (li na : SettledResult (List JobRecord)),
        scrapeAllSites true cl cs li SettledResult.rejected na
          = Except.ok (dedupJobs (settledValue li ++ settledValue na)))
    ∧ (∀ (cl cs : Bool) (li ind : SettledResult (List JobRecord)),
        scrapeAllSites true cl cs li ind SettledResult.rejected
          = Except.ok (dedupJobs (settledValue li ++ settledValue ind)))
    ∧ (∀ (b cl cl2 cs cs2 : Bool) (li ind na : SettledResult (List JobRecord)),
        scrapeAllSites b cl cs li ind na = scrapeAllSites b cl2 cs2 li ind na)
    ∧ (∀ cl cs : Bool,
        scrapeAllSites true cl cs (SettledResult.fulfilled [])
          (SettledResult.fulfilled []) (SettledResult.fulfilled []) = Except.ok []) := by
  refine ⟨?_, ?_, ?_, ?_, ?_, ?_, ?_⟩
  · intro cl cs li ind na
    rfl
  · intro cl cs li ind na
    rfl
  · intro cl cs ind na
    rfl
  · intro cl cs li na
    show Except.ok (dedupJobs (settledValue li ++ [] ++ settledValue na)) = _
    rw [List.append_nil]
  · intro cl cs li ind
    show Except.ok (dedupJobs (settledValue li ++ settledValue ind ++ [])) = _
    rw [List.append_nil]
  · intro b cl cl2 cs cs2 li ind na
    cases b <;> rfl
  · intro cl cs
    rfl

/-- Claim C3 (failing case): when the capped target list is empty, the
promise inside `enrichJobsWithDescriptions` is never resolved — `resolve()`
is reachable only from a fetch's `finally` callback and no fetch ever
starts — even though all (zero) capped records have settled.  So the call
never completes on the empty list, contradicting the completion guarantee. -/
theorem enrich_empty_input_never_resolves :
    (∀ (cfgLimit cfgConc : Option Nat) (outcomes : Nat → FetchOutcome) (sched : List Nat),
        (enrichRun [] cfgLimit cfgConc outcomes sched).resolved = false)
    ∧ enrichCap [] none = 0
    ∧ (enrichRun [] none none (fun _ => FetchOutcome.failure) []).completed
        = enrichCap [] none := by
  have hcap : ∀ cfgLimit : Option Nat, enrichCap [] cfgLimit = 0 := by
    intro cfgLimit
    simp [enrichCap]
  refine ⟨?_, hcap none, rfl⟩
  intro cfgLimit cfgConc outcomes sched
  unfold enrichRun
  rw [hcap]
  apply poolRunFrom_resolved_zero
  rw [poolStartState_resolved]
  rfl

/-- Claim C5: under any valid completion interleaving, the number of
in-flight description fetches never exceeds the concurrency cap
(`detail_concurrency || 3`); and the final list is schedule-independent —
each capped record `i` ends with exactly the description fetched for it. -/
theorem enrich_concurrency_cap_and_identity :
    (∀ (jobs : List JobRecord) (cfgLimit cfgConc : Option Nat)
        (outcomes : Nat → FetchOutcome) (sched : List Nat),
        enrichValid jobs cfgLimit cfgConc outcomes sched = true →
        ∀ s ∈ enrichStates jobs cfgLimit cfgConc outcomes sched,
          s.inFlight.length ≤ enrichConc cfgConc ∧ s.active ≤ enrichConc cfgConc)
    ∧ (∀ (jobs : List JobRecord) (cfgLimit cfgConc : Option Nat)
        (outcomes : Nat → FetchOutcome) (sched : List Nat),
        enrichValid jobs cfgLimit cfgConc outcomes sched = true →
        sched.length = enrichCap jobs cfgLimit →
        enrichJobsWithDescriptions jobs cfgLimit cfgConc outcomes sched =
          jobs.enum.map (fun p =>
            if p.1 < enrichCap jobs cfgLimit
            then { p.2 with description := fetchJobDescription (outcomes p.1) }
            else p.2)) := by
  constructor
  · intro jobs cfgLimit cfgConc outcomes sched hv s hs
    have hinv : PoolInv (enrichConc cfgConc) (enrichCap jobs cfgLimit) (enrichRes outcomes) s :=
      scanl_states_inv (enrichConc cfgConc) (enrichCap jobs cfgLimit) (enrichRes outcomes)
        sched _ hv
        (poolStartState_inv _ _ _ _ (initPoolState_inv _ _ _)) s hs
    constructor
    · rw [← hinv.activeEq]
      exact hinv.activeLe
    · exact hinv.activeLe
  · intro jobs cfgLimit cfgConc outcomes sched hv hlen
    exact enrich_closed_form jobs cfgLimit cfgConc outcomes sched hv hlen

/-- Claim C6: the enrichment limit (`max_detail_fetch || 20`) is applied as a
prefix: exactly `min limit jobs.length` records — precisely the indices below
that bound — each receive one description-fetch attempt, and all records
beyond that prefix are returned unchanged. -/
theorem enrich_cap_bound :
    (∀ (jobs : List JobRecord) (cfgLimit cfgConc : Option Nat)
        (outcomes : Nat → FetchOutcome) (sched : List Nat),
        enrichValid jobs cfgLimit cfgConc outcomes sched = true →
        sched.length = enrichCap jobs cfgLimit →
        ((enrichRun jobs cfgLimit cfgConc outcomes sched).written.map Prod.fst).length
            = enrichCap jobs cfgLimit
        ∧ ((enrichRun jobs cfgLimit cfgConc outcomes sched).written.map Prod.fst).Nodup
        ∧ (∀ i, i ∈ (enrichRun jobs cfgLimit cfgConc outcomes sched).written.map Prod.fst
            ↔ i < enrichCap jobs cfgLimit)
        ∧ (enrichJobsWithDescriptions jobs cfgLimit cfgConc outcomes sched).drop
              (enrichCap jobs cfgLimit)
            = jobs.drop (enrichCap jobs cfgLimit))
    ∧ (∀ (jobs : List JobRecord) (m : Nat), m ≠ 0 →
        enrichCap jobs (some m) = min m jobs.length) := by
  constructor
  · intro jobs cfgLimit cfgConc outcomes sched hv hlen
    obtain ⟨h1, h2, h3⟩ := enrich_written_fst jobs cfgLimit cfgConc outcomes sched hv hlen
    exact ⟨h1, h2, h3, enrich_drop_eq jobs cfgLimit cfgConc outcomes sched hv hlen⟩
  · intro jobs m hm
    simp [enrichCap, resolveOr, hm]

/-- Claim C9: the enrichment step can change only the `description` field —
every other field of every record is preserved, and the records beyond the
capped prefix are returned entirely unchanged. -/
theorem enrich_mutates_only_description :
    (∀ (jobs : List JobRecord) (cfgLimit cfgConc : Option Nat)
        (outcomes : Nat → FetchOutcome) (sched : List Nat),
        (enrichJobsWithDescriptions jobs cfgLimit cfgConc outcomes sched).map stripDescription
          = jobs.map stripDescription)
    ∧ (∀ (jobs : List JobRecord) (cfgLimit cfgConc : Option Nat)
        (outcomes : Nat → FetchOutcome) (sched : List Nat),
        enrichValid jobs cfgLimit cfgConc outcomes sched = true →
        sched.length = enrichCap jobs cfgLimit →
        (enrichJobsWithDescriptions jobs cfgLimit cfgConc outcomes sched).drop
            (enrichCap jobs cfgLimit)
          = jobs.drop (enrichCap jobs cfgLimit)) := by
  constructor
  · intro jobs cfgLimit cfgConc outcomes sched
    exact applyDescs_strip jobs _
  · intro jobs cfgLimit cfgConc outcomes sched hv hlen
    exact enrich_drop_eq jobs cfgLimit cfgConc outcomes sched hv hlen

/-- Claim C7 counterexample: when navigation and extraction succeed but the
extracted text cleans to the empty string (here a single space), the stored
description is the sentinel, not the cleaned/truncated text the claim
prescribes. -/
theorem fetch_description_counterexample :
    fetchJobDescription (FetchOutcome.success " ") ≠ cleanedTrunc " " := by decide

/-- Claim C7 (amended): on a navigation/extraction error the description is
the sentinel; on success it is the whitespace-collapsed, trimmed text
truncated to 4000 characters when that is nonempty, and the sentinel when the
cleaned text is empty; the stored string never exceeds 4000 characters; and
one record's failure never prevents the others from being enriched (every
capped record still ends with its own fetched description or sentinel). -/
theorem fetch_description_amended :
    fetchJobDescription FetchOutcome.failure = descSentinel
    ∧ (∀ text : String, cleanedTrunc text ≠ "" →
        fetchJobDescription (FetchOutcome.success text) = cleanedTrunc text)
    ∧ (∀ text : String, cleanedTrunc text = "" →
        fetchJobDescription (FetchOutcome.success text) = descSentinel)
    ∧ (∀ o : FetchOutcome, (fetchJobDescription o).length ≤ 4000)
    ∧ (∀ (jobs : List JobRecord) (cfgLimit cfgConc : Option Nat)
        (outcomes : Nat → FetchOutcome) (sched : List Nat),
        enrichValid jobs cfgLimit cfgConc outcomes sched = true →
        sched.length = enrichCap jobs cfgLimit →
        enrichJobsWithDescriptions jobs cfgLimit cfgConc outcomes sched =
          jobs.enum.map (fun p =>
            if p.1 < enrichCap jobs cfgLimit
            then { p.2 with description := fetchJobDescription (outcomes p.1) }
            else p.2)) := by
  refine ⟨rfl, ?_, ?_, ?_, ?_⟩
  · intro text hne
    rw [fetchJobDescription]
    rw [if_neg (by simpa using hne)]
  · intro text heq
    rw [fetchJobDescription]
    rw [if_pos (by simpa using heq)]
  · intro o
    cases o with
    | failure =>
      show descSentinel.length ≤ 4000
      decide
    | success text =>
      rw [fetchJobDescription]
      split
      · show descSentinel.length ≤ 4000
        decide
      · show ((cleanText text).data.take 4000).length ≤ 4000
        exact List.length_take_le 4000 _
  · intro jobs cfgLimit cfgConc outcomes sched hv hlen
    exact enrich_closed_form jobs cfgLimit cfgConc outcomes sched hv hlen

/-- Claim C4 counterexample: the Naukri adapter has no trimmed-emptiness
check, so a whitespace-only raw title yields a retained record whose title is
empty after trimming; and every adapter compares the raw (untrimmed) title
against `'N/A'`, so a padded `' N/A '` yields a retained record whose title
is exactly `N/A` after trimming. -/
theorem title_filter_counterexample :
    (scrapeNaukriCards ["Delhi", "Noida"]
        [{ title := some " ", company := some "Acme", location := some "Delhi",
           link := some "http://x" }] 20 "now").map (fun r => jsTrimStr r.title) = [""]
    ∧ (scrapeLinkedInCards
        [{ title := some " N/A ", company := some "Acme", location := some "Delhi",
           link := some "http://x" }] 20 "now").map (fun r => jsTrimStr r.title)
      = ["N/A"] := by
  constructor
  · decide
  · decide

/-- Claim C4 (amended): every retained record arises from a raw title that
was non-null, non-empty and not literally `'N/A'`; for LinkedIn and Indeed
(which additionally test `title.trim() !== ''`) the stored title is never
empty after trimming.  A raw title whose *trimmed* form is `'N/A'` or (for
Naukri only) empty can still be retained. -/
theorem title_filter_amended :
    (∀ (cards : List RawCard) (maxJobs : Nat) (now : String),
        ∀ r ∈ scrapeLinkedInCards cards maxJobs now,
          jsTrimStr r.title ≠ ""
          ∧ ∃ t : String, t ≠ "" ∧ t ≠ "N/A" ∧ r.title = jsTrimStr t)
    ∧ (∀ (cards : List IndeedRawCard) (maxJobs : Nat) (now : String),
        ∀ r ∈ scrapeIndeedCards cards maxJobs now,
          jsTrimStr r.title ≠ ""
          ∧ ∃ t : String, t ≠ "" ∧ t ≠ "N/A" ∧ r.title = jsTrimStr t)
    ∧ (∀ (primary : List String) (cards : List RawCard) (maxJobs : Nat) (now : String),
        ∀ r ∈ scrapeNaukriCards primary cards maxJobs now,
          ∃ t : String, t ≠ "" ∧ t ≠ "N/A" ∧ r.title = jsTrimStr t) := by
  refine ⟨?_, ?_, ?_⟩
  · intro cards maxJobs now r hr
    obtain ⟨c, _, hc⟩ := List.mem_filterMap.mp hr
    obtain ⟨t, _, ht1, ht2, ht3, ht4⟩ := linkedInCardRecord_title now c r hc
    refine ⟨?_, t, ht1, ht2, ht4⟩
    rw [ht4, jsTrimStr_idem]
    exact ht3
  · intro cards maxJobs now r hr
    obtain ⟨c, _, hc⟩ := List.mem_filterMap.mp hr
    obtain ⟨t, ht1, ht2, ht3, ht4⟩ := indeedCardRecord_title now c r hc
    refine ⟨?_, t, ht1, ht2, ht4⟩
    rw [ht4, jsTrimStr_idem]
    exact ht3
  · intro primary cards maxJobs now r hr
    obtain ⟨c, _, hc⟩ := List.mem_filterMap.mp hr
    obtain ⟨t, _, ht1, ht2, ht3⟩ := naukriCardRecord_title primary now c r hc
    exact ⟨t, ht1, ht2, ht3⟩

/-- Claim C8: the location predicate rejects `"Gurgaon, India"` under
`primary = ["Delhi","Noida"]`; accepts any location containing an accepted
substring case-insensitively; accepts any location containing `"remote"` or
`"work from home"`; and accepts unknown locations (`null`, `""`, `"N/A"`). -/
theorem location_filter_spec :
    isRelevantLocation ["Delhi", "Noida"] (some "Gurgaon, India") = false
    ∧ (∀ (primary : List String) (loc p : String), p ∈ primary →
        strIncludes (lowerStr loc) (lowerStr p) = true →
        isRelevantLocation primary (some loc) = true)
    ∧ (∀ (primary : List String) (loc : String),
        strIncludes (lowerStr loc) "remote" = true →
        isRelevantLocation primary (some loc) = true)
    ∧ (∀ (primary : List String) (loc : String),
        strIncludes (lowerStr loc) "work from home" = true →
        isRelevantLocation primary (some loc) = true)
    ∧ (∀ primary : List String,
        isRelevantLocation primary none = true
        ∧ isRelevantLocation primary (some "") = true
        ∧ isRelevantLocation primary (some "N/A") = true) := by
  refine ⟨by decide, ?_, ?_, ?_, ?_⟩
  · intro primary loc p hp hinc
    unfold isRelevantLocation
    split
    · rfl
    · refine Bool.or_eq_true_iff.mpr (Or.inl ?_)
      refine Bool.or_eq_true_iff.mpr (Or.inl ?_)
      rw [List.any_eq_true]
      exact ⟨p, hp, hinc⟩
  · intro primary loc hinc
    unfold isRelevantLocation
    split
    · rfl
    · refine Bool.or_eq_true_iff.mpr (Or.inl ?_)
      refine Bool.or_eq_true_iff.mpr (Or.inr ?_)
      exact hinc
  · intro primary loc hinc
    unfold isRelevantLocation
    split
    · rfl
    · exact Bool.or_eq_true_iff.mpr (Or.inr hinc)
  · intro primary
    refine ⟨rfl, rfl, ?_⟩
    unfold isRelevantLocation
    rw [if_pos (by decide)]

/-! ### Witnesses -/

theorem title_filter_amended_witness :
    jsTrimStr ({ title := "Dev", company := "Acme", location := "Delhi",
                 link := "http://x", source := "LinkedIn", scraped_at := "now",
                 description := "" } : JobRecord).title ≠ "" :=
  (title_filter_amended.1
    [{ title := some "Dev", company := some "Acme", location := some "Delhi",
       link := some "http://x" }] 20 "now" _ (by decide)).1

theorem enrich_concurrency_cap_witness :
    (((enrichStates wJobs10 none none wOutcome wSched10).get ⟨3, by decide⟩).inFlight.length
        ≤ enrichConc none
      ∧ ((enrichStates wJobs10 none none wOutcome wSched10).get ⟨3, by decide⟩).active
        ≤ enrichConc none)
    ∧ enrichJobsWithDescriptions wJobs10 none none wOutcome wSched10 =
        [wJobDone "a", wJobDone "b", wJobDone "c", wJobDone "d", wJobDone "e", wJobDone "f",
         wJobDone "g", wJobDone "h", wJobDone "i", wJobDone "j"] :=
  ⟨enrich_concurrency_cap_and_identity.1 wJobs10 none none wOutcome wSched10 (by decide) _
      (List.get_mem _ _ _),
   (enrich_concurrency_cap_and_identity.2 wJobs10 none none wOutcome wSched10 (by decide)
      (by decide)).trans (by decide)⟩

theorem enrich_cap_bound_witness :
    ((enrichRun wJobs5 (some 2) none wOutcome [0, 1]).written.map Prod.fst).length
        = enrichCap wJobs5 (some 2)
    ∧ (enrichJobsWithDescriptions wJobs5 (some 2) none wOutcome [0, 1]).drop
          (enrichCap wJobs5 (some 2)) = wJobs5.drop (enrichCap wJobs5 (some 2))
    ∧ enrichCap wJobs5 (some 2) = min 2 wJobs5.length :=
  ⟨(enrich_cap_bound.1 wJobs5 (some 2) none wOutcome [0, 1] (by decide) (by decide)).1,
   (enrich_cap_bound.1 wJobs5 (some 2) none wOutcome [0, 1] (by decide) (by decide)).2.2.2,
   enrich_cap_bound.2 wJobs5 2 (by decide)⟩

theorem fetch_description_amended_witness :
    cleanedTrunc "hello  world" ≠ ""
    ∧ fetchJobDescription (FetchOutcome.success "hello  world") = cleanedTrunc "hello  world"
    ∧ cleanedTrunc " " = ""
    ∧ fetchJobDescription (FetchOutcome.success " ") = descSentinel :=
  ⟨by decide, fetch_description_amended.2.1 "hello  world" (by decide), by decide,
   fetch_description_amended.2.2.1 " " (by decide)⟩

theorem location_filter_spec_witness :
    isRelevantLocation ["Delhi"] (some "New Delhi") = true
    ∧ isRelevantLocation [] (some "Fully Remote") = true
    ∧ isRelevantLocation [] (some "Work from home - Gurgaon") = true :=
  ⟨location_filter_spec.2.1 ["Delhi"] "New Delhi" "Delhi" (by decide) (by decide),
   location_filter_spec.2.2.1 [] "Fully Remote" (by decide),
   location_filter_spec.2.2.2.1 [] "Work from home - Gurgaon" (by decide)⟩

theorem enrich_mutates_only_description_witness :
    (enrichJobsWithDescriptions wJobs5 (some 2) none wOutcome [0, 1]).map stripDescription
        = wJobs5.map stripDescription
    ∧ (enrichJobsWithDescriptions wJobs5 (some 2) none wOutcome [0, 1]).drop
          (enrichCap wJobs5 (some 2)) = wJobs5.drop (enrichCap wJobs5 (some 2)) :=
  ⟨enrich_mutates_only_description.1 wJobs5 (some 2) none wOutcome [0, 1],
   enrich_mutates_only_description.2 wJobs5 (some 2) none wOutcome [0, 1] (by decide) (by decide)⟩
